import Mathlib

/-!
Verification of the hockey team balancer core
(`src/hockey_team_balancer_gui.py`) against its specification.

The Python source is shallowly embedded below.  Ranks are embedded as `Int`
(the source coerces the spreadsheet value through `int(...)`); the spreadsheet
cell for the `Selected` column is embedded as `Option String`, `none` playing
the role of a missing/NaN cell and `some s` the string form `str(value)` of
any other cell.  Team capacity slots are the two-valued type `Pos` since every
call site of `can_add`/`assign_player` passes the literal `"F"` or `"D"`;
a player's own `position` stays a `String`, as in the source, because the
constructor branches on it with arbitrary values possible.

One behavioural subtlety of the source is embedded faithfully: the projected
totals in `attempt_build` branch on `team == team_a`, which in Python is
*value* equality of the team dictionaries, not identity.  `trialDiff` below
reproduces this with decidable equality on `TeamState`; the lemma
`trialDiff_eq_specTrialDiff` shows it coincides with the identity-based
reading used by the spec.
-/

/-- Embeds the `Player` dataclass: name, integer rank, position string
(already trimmed and upper-cased by the loader). -/
structure Player where
  name : String
  rank : Int
  position : String
deriving DecidableEq, Repr

/-- The two team capacity slots, `"F"` and `"D"` in the source. -/
inductive Pos where
  | F : Pos
  | D : Pos
deriving DecidableEq, Repr

/-- Which of the two team objects an option refers to (the source stores a
reference to `team_a` or `team_b` in each option tuple). -/
inductive TeamId where
  | A : TeamId
  | B : TeamId
deriving DecidableEq, Repr

/-- Embeds the team dictionary `{"F": [...], "D": [...], "total": ...}`. -/
structure TeamState where
  F : List Player
  D : List Player
  total : Int
deriving DecidableEq, Repr

/-- `FORWARDS_TARGET = 6`. -/
def FORWARDS_TARGET : Nat := 6

/-- `DEFENCE_TARGET = 4`. -/
def DEFENCE_TARGET : Nat := 4

/-- Embeds Python's `str.upper()` (character-wise upper-casing). -/
def pyUpper (s : String) : String := ⟨s.data.map Char.toUpper⟩

/-- Embeds Python's `str.strip()`: drop whitespace from both ends. -/
def pyStrip (s : String) : String :=
  ⟨((s.data.dropWhile Char.isWhitespace).reverse.dropWhile Char.isWhitespace).reverse⟩

/-- Embeds `is_selected`: `pd.isna(value)` is `none`; otherwise the trimmed,
upper-cased string must be one of TRUE, 1, YES, Y. -/
def is_selected (value : Option String) : Bool :=
  match value with
  | none => false
  | some s => ["TRUE", "1", "YES", "Y"].contains (pyUpper (pyStrip s))

/-- Embeds `empty_team()`. -/
def empty_team : TeamState := { F := [], D := [], total := 0 }

/-- Embeds `can_add(team, pos)` at its two reachable slot arguments. -/
def can_add (team : TeamState) (pos : Pos) : Bool :=
  match pos with
  | Pos.F => team.F.length < FORWARDS_TARGET
  | Pos.D => team.D.length < DEFENCE_TARGET

/-- Embeds `assign_player(team, player, pos)`: append to the slot list and
add the rank to the running total. -/
def assign_player (team : TeamState) (player : Player) (pos : Pos) : TeamState :=
  match pos with
  | Pos.F => { team with F := team.F ++ [player], total := team.total + player.rank }
  | Pos.D => { team with D := team.D ++ [player], total := team.total + player.rank }

/-- The constrained candidate options contributed by one team for one player,
in source enumeration order (`F` before `D` in the flex branch).  Any
position other than `"F"` and `"D"` takes the source's `else:  # FLEX`
branch. -/
def teamOptions (t : TeamState) (tid : TeamId) (posStr : String) :
    List (TeamId × Pos) :=
  if posStr = "F" then
    if can_add t Pos.F then [(tid, Pos.F)] else []
  else if posStr = "D" then
    if can_add t Pos.D then [(tid, Pos.D)] else []
  else
    (if can_add t Pos.F then [(tid, Pos.F)] else []) ++
      (if can_add t Pos.D then [(tid, Pos.D)] else [])

/-- The constrained enumeration: team A's options then team B's, as produced
by `for team in [team_a, team_b]`. -/
def constrainedOptions (ta tb : TeamState) (p : Player) : List (TeamId × Pos) :=
  teamOptions ta TeamId.A p.position ++ teamOptions tb TeamId.B p.position

/-- Embeds the full option computation, including the fallback list
`[(team_a, "F"), (team_b, "F"), (team_a, "D"), (team_b, "D")]` used when the
constrained enumeration is empty. -/
def optionsFor (ta tb : TeamState) (p : Player) : List (TeamId × Pos) :=
  let cs := constrainedOptions ta tb p
  if cs = [] then
    [(TeamId.A, Pos.F), (TeamId.B, Pos.F), (TeamId.A, Pos.D), (TeamId.B, Pos.D)]
  else cs

/-- The team object an option's `TeamId` dereferences to. -/
def teamOf (ta tb : TeamState) (tid : TeamId) : TeamState :=
  match tid with
  | TeamId.A => ta
  | TeamId.B => tb

/-- Embeds the projected-gap computation of one trial, including the source's
`if team == team_a` test, which is Python *value* equality of the team
dictionaries. -/
def trialDiff (ta tb : TeamState) (p : Player) (tid : TeamId) : Int :=
  let t := teamOf ta tb tid
  if t = ta then |ta.total + p.rank - tb.total|
  else |ta.total - (tb.total + p.rank)|

/-- The spec's reading of the trial gap: only the evaluated team's projected
total is incremented by the player's rank. -/
def specTrialDiff (ta tb : TeamState) (p : Player) (tid : TeamId) : Int :=
  match tid with
  | TeamId.A => |ta.total + p.rank - tb.total|
  | TeamId.B => |ta.total - (tb.total + p.rank)|

/-- Embeds the selection loop over the remaining options, carrying the
current best option and its diff; the best is replaced only on a strictly
smaller diff. -/
def selectMove (ta tb : TeamState) (p : Player) :
    List (TeamId × Pos) → TeamId × Pos → Int → TeamId × Pos
  | [], best, _ => best
  | o :: rest, best, bd =>
      if trialDiff ta tb p o.1 < bd then
        selectMove ta tb p rest o (trialDiff ta tb p o.1)
      else
        selectMove ta tb p rest best bd

/-- Embeds the whole `best_move` computation: starting from
`best_diff = inf`, the first option always becomes the initial best (its
finite diff beats infinity), then `selectMove` scans the rest.  The empty
case is unreachable because `optionsFor` is never empty
(`optionsFor_ne_nil`); the source would crash there (`best_move[0]` on
`None`). -/
def best_move (ta tb : TeamState) (p : Player) : TeamId × Pos :=
  match optionsFor ta tb p with
  | [] => (TeamId.A, Pos.F)
  | o :: rest => selectMove ta tb p rest o (trialDiff ta tb p o.1)

/-- Embeds `assign_player(best_move[0], player, best_move[1])`: the chosen
team reference is mutated, the other team is untouched. -/
def placePlayer (ta tb : TeamState) (p : Player) : TeamState × TeamState :=
  match best_move ta tb p with
  | (TeamId.A, pos) => (assign_player ta p pos, tb)
  | (TeamId.B, pos) => (ta, assign_player tb p pos)

/-- Embeds `attempt_build` applied to an already-shuffled order: fold the
placement of each player over the list, starting from two empty teams.
The random shuffle of the source is accounted for by quantifying theorems
over all orderings. -/
def attempt_build (ps : List Player) : TeamState × TeamState :=
  ps.foldl (fun st p => placePlayer st.1 st.2 p) (empty_team, empty_team)

/-- The skill difference of one attempt, `abs(a["total"] - b["total"])`. -/
def attemptDiff (ord : List Player) : Int :=
  |(attempt_build ord).1.total - (attempt_build ord).2.total|

/-- One step of the driver's best tracking: replace the running best only on
a strictly smaller diff (`if diff < best_diff`), first attempt always
installs itself (`best_diff` starts at infinity, modeled by `none`). -/
def stepBest (best : Option (TeamState × TeamState × Int))
    (ord : List Player) : Option (TeamState × TeamState × Int) :=
  let a := (attempt_build ord).1
  let b := (attempt_build ord).2
  let d := attemptDiff ord
  match best with
  | none => some (a, b, d)
  | some (ba, bb, bd) => if d < bd then some (a, b, d) else some (ba, bb, bd)

/-- The running best's diff; `none` while no attempt has run. -/
def bestDiffOf (best : Option (TeamState × TeamState × Int)) : Option Int :=
  match best with
  | none => none
  | some (_, _, bd) => some bd

/-- Embeds the driver's iteration loop over a list of shuffled orders: update
the best, then `break` the moment the running best diff equals 0. -/
def searchLoop : List (List Player) →
    Option (TeamState × TeamState × Int) → Option (TeamState × TeamState × Int)
  | [], best => best
  | ord :: rest, best =>
      let best2 := stepBest best ord
      if bestDiffOf best2 = some 0 then best2 else searchLoop rest best2

/-- One input spreadsheet row, already projected to the four required
columns.  `selected` is the raw `Selected` cell (`none` = missing/NaN);
`rank` is the value of `int(row["Rank"])`. -/
structure Row where
  selected : Option String
  name : String
  rank : Int
  position : String
deriving DecidableEq, Repr

/-- The player built from an eligible row:
`Player(name, int(rank), position.strip().upper())`. -/
def rowPlayer (r : Row) : Player :=
  { name := r.name, rank := r.rank, position := pyUpper (pyStrip r.position) }

/-- The eligible players extracted from the input rows, in row order:
rows failing `is_selected` are skipped. -/
def eligiblePlayers (rows : List Row) : List Player :=
  (rows.filter (fun r => is_selected r.selected)).map rowPlayer

/-- Embeds `build_teams` after the schema check: filter to eligible players,
raise `ValueError("Not enough selected players")` below 10, otherwise run the
search loop over the supplied shuffled orders (the source always supplies
`ITERATIONS = 7000` of them, in particular at least one; with an empty order
list the source's final `best[0]` would crash on `None`, embedded as a second
error). -/
def build_teams (rows : List Row) (orders : List (List Player)) :
    Except String (TeamState × TeamState × Int) :=
  if (eligiblePlayers rows).length < 10 then
    Except.error "Not enough selected players"
  else
    match searchLoop orders none with
    | none => Except.error "no attempt ran"
    | some r => Except.ok r

/-- All players held by a team across both role collections. -/
def teamPlayers (t : TeamState) : List Player := t.F ++ t.D

/-! ### Basic lemmas about the placement policy -/

theorem optionsFor_ne_nil (ta tb : TeamState) (p : Player) :
    optionsFor ta tb p ≠ [] := by
  unfold optionsFor
  by_cases h : constrainedOptions ta tb p = [] <;> simp [h]

/-- Sum of the ranks of all players a team currently holds. -/
def teamSum (t : TeamState) : Int := ((t.F ++ t.D).map Player.rank).sum

theorem teamSum_assign (t : TeamState) (p : Player) (pos : Pos) :
    teamSum (assign_player t p pos) = teamSum t + p.rank := by
  cases pos <;>
    simp [teamSum, assign_player, List.map_append, List.sum_append] <;> ring

theorem total_assign (t : TeamState) (p : Player) (pos : Pos) :
    (assign_player t p pos).total = t.total + p.rank := by
  cases pos <;> simp [assign_player]

theorem teamPlayers_assign (t : TeamState) (p : Player) (pos : Pos) :
    (teamPlayers (assign_player t p pos)).Perm (p :: teamPlayers t) := by
  cases pos
  · simp only [teamPlayers, assign_player, List.append_assoc, List.singleton_append]
    exact List.perm_middle
  · simp only [teamPlayers, assign_player]
    exact ((List.perm_append_singleton p t.D).append_left t.F).trans List.perm_middle

/-! ### C9: the eligibility predicate -/

/-- C9: `is_selected` is true for exactly the values whose trimmed,
upper-cased string form is TRUE, 1, YES or Y; every other value — including
a missing (`none`) cell, whose string form does not exist — yields false. -/
theorem is_selected_characterization (v : Option String) :
    is_selected v = true ↔
      ∃ s, v = some s ∧
        (pyUpper (pyStrip s) = "TRUE" ∨ pyUpper (pyStrip s) = "1" ∨
          pyUpper (pyStrip s) = "YES" ∨ pyUpper (pyStrip s) = "Y") := by
  cases v with
  | none => simp [is_selected]
  | some s => simp [is_selected, List.contains]

/-! ### C4: the running total invariant -/

theorem total_eq_teamSum_assign (t : TeamState) (p : Player) (pos : Pos)
    (h : t.total = teamSum t) :
    (assign_player t p pos).total = teamSum (assign_player t p pos) := by
  rw [total_assign, teamSum_assign, h]

/-- C4: starting from the empty team and after every sequence of
assignments performed through `assign_player`, the running `total` equals
the sum of the ranks of all players held across the Forward and Defence
collections. -/
theorem total_eq_sum_of_ranks (asgs : List (Player × Pos)) :
    (asgs.foldl (fun t pp => assign_player t pp.1 pp.2) empty_team).total =
      teamSum (asgs.foldl (fun t pp => assign_player t pp.1 pp.2) empty_team) := by
  suffices h : ∀ (l : List (Player × Pos)) (t : TeamState), t.total = teamSum t →
      (l.foldl (fun t pp => assign_player t pp.1 pp.2) t).total =
        teamSum (l.foldl (fun t pp => assign_player t pp.1 pp.2) t) by
    exact h asgs empty_team (by simp [empty_team, teamSum])
  intro l
  induction l with
  | nil => intro t ht; exact ht
  | cons pp rest ih =>
      intro t ht
      simp only [List.foldl_cons]
      exact ih _ (total_eq_teamSum_assign t pp.1 pp.2 ht)

/-! ### C1: no player dropped or duplicated -/

theorem placePlayer_perm (ta tb : TeamState) (p : Player) :
    (teamPlayers (placePlayer ta tb p).1 ++
      teamPlayers (placePlayer ta tb p).2).Perm
      (p :: (teamPlayers ta ++ teamPlayers tb)) := by
  rcases h : best_move ta tb p with ⟨tid, pos⟩
  cases tid
  · have hp : placePlayer ta tb p = (assign_player ta p pos, tb) := by
      unfold placePlayer; rw [h]
    rw [hp]
    exact (teamPlayers_assign ta p pos).append_right (teamPlayers tb)
  · have hp : placePlayer ta tb p = (ta, assign_player tb p pos) := by
      unfold placePlayer; rw [h]
    rw [hp]
    exact ((teamPlayers_assign tb p pos).append_left (teamPlayers ta)).trans
      List.perm_middle

theorem foldl_place_perm : ∀ (ps : List Player) (ta tb : TeamState),
    (teamPlayers (ps.foldl (fun st p => placePlayer st.1 st.2 p) (ta, tb)).1 ++
      teamPlayers (ps.foldl (fun st p => placePlayer st.1 st.2 p) (ta, tb)).2).Perm
      (ps ++ (teamPlayers ta ++ teamPlayers tb))
  | [], _, _ => by simp
  | p :: rest, ta, tb => by
      simp only [List.foldl_cons]
      refine (foldl_place_perm rest (placePlayer ta tb p).1
        (placePlayer ta tb p).2).trans ?_
    -- The placed player moves from the middle to the head of the target list.
      exact ((placePlayer_perm ta tb p).append_left rest).trans List.perm_middle

theorem attempt_build_perm (ps : List Player) :
    (teamPlayers (attempt_build ps).1 ++ teamPlayers (attempt_build ps).2).Perm
      ps := by
  have h := foldl_place_perm ps empty_team empty_team
  simpa [attempt_build, teamPlayers, empty_team] using h

theorem stepBest_ne_none (best : Option (TeamState × TeamState × Int))
    (ord : List Player) : stepBest best ord ≠ none := by
  rcases best with _ | ⟨ba, bb, bd⟩
  · simp [stepBest]
  · by_cases h : attemptDiff ord < bd <;> simp [stepBest, h]

theorem stepBest_cases (best : Option (TeamState × TeamState × Int))
    (ord : List Player) (r : TeamState × TeamState × Int)
    (h : stepBest best ord = some r) :
    best = some r ∨
      r = ((attempt_build ord).1, (attempt_build ord).2, attemptDiff ord) := by
  rcases best with _ | ⟨ba, bb, bd⟩
  · simp [stepBest] at h
    exact Or.inr h.symm
  · by_cases hlt : attemptDiff ord < bd
    · simp [stepBest, hlt] at h
      exact Or.inr h.symm
    · simp [stepBest, hlt] at h
      exact Or.inl (by rw [h])

theorem searchLoop_ne_none : ∀ (orders : List (List Player))
    (best : Option (TeamState × TeamState × Int)), best ≠ none →
    searchLoop orders best ≠ none
  | [], _, h => h
  | ord :: rest, best, _ => by
      unfold searchLoop
      by_cases h0 : bestDiffOf (stepBest best ord) = some 0
      · simpa [h0] using stepBest_ne_none best ord
      · simpa [h0] using
          searchLoop_ne_none rest (stepBest best ord) (stepBest_ne_none best ord)

theorem searchLoop_result : ∀ (orders : List (List Player))
    (best : Option (TeamState × TeamState × Int))
    (r : TeamState × TeamState × Int), searchLoop orders best = some r →
    best = some r ∨ ∃ ord ∈ orders,
      r = ((attempt_build ord).1, (attempt_build ord).2, attemptDiff ord)
  | [], _, _, h => Or.inl h
  | ord :: rest, best, r, h => by
      unfold searchLoop at h
      by_cases h0 : bestDiffOf (stepBest best ord) = some 0
      · rw [if_pos h0] at h
        rcases stepBest_cases best ord r h with hb | hb
        · exact Or.inl hb
        · exact Or.inr ⟨ord, List.mem_cons_self ord rest, hb⟩
      · rw [if_neg h0] at h
        rcases searchLoop_result rest (stepBest best ord) r h with hb | ⟨o, ho, hr⟩
        · rcases stepBest_cases best ord r hb with hc | hc
          · exact Or.inl hc
          · exact Or.inr ⟨ord, List.mem_cons_self ord rest, hc⟩
        · exact Or.inr ⟨o, List.mem_cons_of_mem ord ho, hr⟩

/-- C1: on any input with at least 10 eligible players and at least one
search attempt (the source always runs `ITERATIONS = 7000` of them), each
attempt order being a shuffle (permutation) of the eligible players,
`build_teams` succeeds and the two returned teams together hold every
eligible player exactly once — no player is dropped or duplicated, even when
the role mix exceeds the capacity targets, thanks to the fallback policy. -/
theorem search_places_every_player (rows : List Row) (orders : List (List Player))
    (h10 : 10 ≤ (eligiblePlayers rows).length) (hne : orders ≠ [])
    (hperm : ∀ ord ∈ orders, ord.Perm (eligiblePlayers rows)) :
    ∃ a b d, build_teams rows orders = Except.ok (a, b, d) ∧
      (teamPlayers a ++ teamPlayers b).Perm (eligiblePlayers rows) := by
  unfold build_teams
  rw [if_neg (by omega)]
  rcases orders with _ | ⟨ord, rest⟩
  · exact absurd rfl hne
  · have hnn : searchLoop (ord :: rest) none ≠ none := by
      unfold searchLoop
      by_cases h0 : bestDiffOf (stepBest none ord) = some 0
      · simpa [h0] using stepBest_ne_none none ord
      · simpa [h0] using
          searchLoop_ne_none rest (stepBest none ord) (stepBest_ne_none none ord)
    rcases hsl : searchLoop (ord :: rest) none with _ | r
    · exact absurd hsl hnn
    · rcases r with ⟨a, b, d⟩
      refine ⟨a, b, d, rfl, ?_⟩
      rcases searchLoop_result (ord :: rest) none (a, b, d) hsl with hb | ⟨o, ho, hr⟩
      · exact absurd hb (by simp)
      · have ha : a = (attempt_build o).1 := congrArg (fun x => x.1) hr
        have hbb : b = (attempt_build o).2 :=
          congrArg (fun x => x.2.1) hr
        rw [ha, hbb]
        exact (attempt_build_perm o).trans (hperm o ho)

/-! ### C7: the minimum-roster guard -/

/-- C7: with fewer than 10 eligible players, `build_teams` raises the input
error regardless of the attempt orders — no attempt influences the outcome
and no partition is produced. -/
theorem insufficient_players_error (rows : List Row) (orders : List (List Player))
    (h : (eligiblePlayers rows).length < 10) :
    build_teams rows orders = Except.error "Not enough selected players" := by
  unfold build_teams
  rw [if_pos h]

theorem insufficient_players_error_witness :
    (eligiblePlayers []).length < 10 ∧
      build_teams [] [[]] = Except.error "Not enough selected players" :=
  ⟨by decide, insufficient_players_error [] [[]] (by decide)⟩

/-! ### C8: early exit on perfect balance -/

/-- C8: the moment the running best diff reaches 0 after an attempt, the
iteration loop exits: over `ord :: rest` it returns the state right after
`ord`, never consuming `rest`. -/
theorem early_stop_at_zero (ord : List Player) (rest : List (List Player))
    (best : Option (TeamState × TeamState × Int))
    (h : bestDiffOf (stepBest best ord) = some 0) :
    searchLoop (ord :: rest) best = stepBest best ord := by
  unfold searchLoop
  rw [if_pos h]

/-- A two-player order whose attempt is perfectly balanced. -/
def zeroDiffOrder : List Player :=
  [{ name := "x", rank := 3, position := "F" }, { name := "y", rank := 3, position := "F" }]

theorem early_stop_at_zero_witness :
    bestDiffOf (stepBest none zeroDiffOrder) = some 0 ∧
      searchLoop (zeroDiffOrder :: [[{ name := "z", rank := 1, position := "F" }]]) none =
        stepBest none zeroDiffOrder :=
  ⟨by decide, early_stop_at_zero zeroDiffOrder
    [[{ name := "z", rank := 1, position := "F" }]] none (by decide)⟩

/-! ### C6: best replaced only on strict improvement -/

theorem searchLoop_best_le : ∀ (orders : List (List Player)) (ba bb : TeamState)
    (bd : Int), ∃ ba2 bb2 bd2,
    searchLoop orders (some (ba, bb, bd)) = some (ba2, bb2, bd2) ∧ bd2 ≤ bd
  | [], ba, bb, bd => ⟨ba, bb, bd, rfl, le_refl bd⟩
  | ord :: rest, ba, bb, bd => by
      unfold searchLoop
      by_cases hlt : attemptDiff ord < bd
      · have hstep : stepBest (some (ba, bb, bd)) ord =
            some ((attempt_build ord).1, (attempt_build ord).2, attemptDiff ord) := by
          simp [stepBest, hlt]
        rw [hstep]
        by_cases h0 : bestDiffOf
            (some ((attempt_build ord).1, (attempt_build ord).2, attemptDiff ord)) = some 0
        · rw [if_pos h0]
          exact ⟨_, _, _, rfl, le_of_lt hlt⟩
        · rw [if_neg h0]
          obtain ⟨ba2, bb2, bd2, heq, hle⟩ :=
            searchLoop_best_le rest (attempt_build ord).1 (attempt_build ord).2
              (attemptDiff ord)
          exact ⟨ba2, bb2, bd2, heq, le_trans hle (le_of_lt hlt)⟩
      · have hstep : stepBest (some (ba, bb, bd)) ord = some (ba, bb, bd) := by
          simp [stepBest, hlt]
        rw [hstep]
        by_cases h0 : bestDiffOf (some (ba, bb, bd)) = some 0
        · rw [if_pos h0]
          exact ⟨ba, bb, bd, rfl, le_refl bd⟩
        · rw [if_neg h0]
          exact searchLoop_best_le rest ba bb bd

theorem searchLoop_keeps_best : ∀ (orders : List (List Player)) (ba bb : TeamState)
    (bd : Int), (∀ ord ∈ orders, bd ≤ attemptDiff ord) →
    searchLoop orders (some (ba, bb, bd)) = some (ba, bb, bd)
  | [], _, _, _, _ => rfl
  | ord :: rest, ba, bb, bd, h => by
      unfold searchLoop
      have hnlt : ¬ attemptDiff ord < bd :=
        not_lt.mpr (h ord (List.mem_cons_self ord rest))
      have hstep : stepBest (some (ba, bb, bd)) ord = some (ba, bb, bd) := by
        simp [stepBest, hnlt]
      rw [hstep]
      by_cases h0 : bestDiffOf (some (ba, bb, bd)) = some 0
      · rw [if_pos h0]
      · rw [if_neg h0]
        exact searchLoop_keeps_best rest ba bb bd
          (fun o ho => h o (List.mem_cons_of_mem ord ho))

/-- C6: within one search call the running best diff is monotonically
non-increasing (the loop starting from a best with diff `bd` ends with a
best whose diff is at most `bd`), and the running best is replaced only by a
strictly smaller diff: when no attempt beats `bd` — in particular on exact
ties — the first best is kept unchanged. -/
theorem best_replaced_only_on_strict_improvement (orders : List (List Player))
    (ba bb : TeamState) (bd : Int) :
    (∃ ba2 bb2 bd2,
      searchLoop orders (some (ba, bb, bd)) = some (ba2, bb2, bd2) ∧ bd2 ≤ bd) ∧
    ((∀ ord ∈ orders, bd ≤ attemptDiff ord) →
      searchLoop orders (some (ba, bb, bd)) = some (ba, bb, bd)) :=
  ⟨searchLoop_best_le orders ba bb bd, searchLoop_keeps_best orders ba bb bd⟩

theorem best_replaced_only_on_strict_improvement_witness :
    (∀ ord ∈ [[{ name := "x", rank := 3, position := "F" }]],
      (2 : Int) ≤ attemptDiff ord) ∧
    searchLoop [[{ name := "x", rank := 3, position := "F" }]]
        (some (empty_team, empty_team, 2)) = some (empty_team, empty_team, 2) :=
  ⟨by decide,
    (best_replaced_only_on_strict_improvement
      [[{ name := "x", rank := 3, position := "F" }]] empty_team empty_team 2).2
      (by decide)⟩

/-! ### C2: the greedy selection commits the first minimal-gap option -/

/-- The source's value-equality test `team == team_a` never changes the
computed gap: whenever the two team dictionaries are equal as values their
totals are equal, and then both orientations of the projection give the same
absolute difference. -/
theorem trialDiff_eq_specTrialDiff (ta tb : TeamState) (p : Player)
    (tid : TeamId) : trialDiff ta tb p tid = specTrialDiff ta tb p tid := by
  cases tid
  · simp [trialDiff, specTrialDiff, teamOf]
  · show (if tb = ta then |ta.total + p.rank - tb.total|
      else |ta.total - (tb.total + p.rank)|) = |ta.total - (tb.total + p.rank)|
    by_cases h : tb = ta
    · rw [if_pos h, h]
      exact abs_sub_comm (ta.total + p.rank) ta.total
    · rw [if_neg h]

theorem selectMove_first_min (ta tb : TeamState) (p : Player) :
    ∀ (l : List (TeamId × Pos)) (best : TeamId × Pos),
      (∀ o ∈ best :: l,
        trialDiff ta tb p
            (selectMove ta tb p l best (trialDiff ta tb p best.1)).1 ≤
          trialDiff ta tb p o.1) ∧
      ∃ l1 l2,
        best :: l = l1 ++ selectMove ta tb p l best (trialDiff ta tb p best.1) :: l2 ∧
        ∀ o ∈ l1,
          trialDiff ta tb p
              (selectMove ta tb p l best (trialDiff ta tb p best.1)).1 <
            trialDiff ta tb p o.1 := by
  intro l
  induction l with
  | nil =>
      intro best
      refine ⟨?_, [], [], rfl, by simp⟩
      intro o ho
      rw [List.mem_singleton] at ho
      rw [ho]
      exact le_refl _
  | cons o rest ih =>
      intro best
      by_cases h : trialDiff ta tb p o.1 < trialDiff ta tb p best.1
      · have hsel : selectMove ta tb p (o :: rest) best (trialDiff ta tb p best.1) =
            selectMove ta tb p rest o (trialDiff ta tb p o.1) := by
          simp only [selectMove, if_pos h]
        rw [hsel]
        obtain ⟨hmin, l1, l2, hsplit, hstrict⟩ := ih o
        have hrmin : trialDiff ta tb p
            (selectMove ta tb p rest o (trialDiff ta tb p o.1)).1 ≤
              trialDiff ta tb p o.1 :=
          hmin o (List.mem_cons_self o rest)
        constructor
        · intro o2 ho2
          rcases List.mem_cons.mp ho2 with hb | ho3
          · rw [hb]
            exact le_of_lt (lt_of_le_of_lt hrmin h)
          · exact hmin o2 ho3
        · refine ⟨best :: l1, l2, by rw [List.cons_append, hsplit], ?_⟩
          intro o2 ho2
          rcases List.mem_cons.mp ho2 with hb | ho3
          · rw [hb]
            exact lt_of_le_of_lt hrmin h
          · exact hstrict o2 ho3
      · have hsel : selectMove ta tb p (o :: rest) best (trialDiff ta tb p best.1) =
            selectMove ta tb p rest best (trialDiff ta tb p best.1) := by
          simp only [selectMove, if_neg h]
        rw [hsel]
        obtain ⟨hmin, l1, l2, hsplit, hstrict⟩ := ih best
        have hrmin : trialDiff ta tb p
            (selectMove ta tb p rest best (trialDiff ta tb p best.1)).1 ≤
              trialDiff ta tb p best.1 :=
          hmin best (List.mem_cons_self best rest)
        have hob : trialDiff ta tb p best.1 ≤ trialDiff ta tb p o.1 := not_lt.mp h
        constructor
        · intro o2 ho2
          rcases List.mem_cons.mp ho2 with hb | ho3
          · rw [hb]
            exact hrmin
          · rcases List.mem_cons.mp ho3 with hb2 | ho4
            · rw [hb2]
              exact le_trans hrmin hob
            · exact hmin o2 (List.mem_cons_of_mem best ho4)
        · rcases l1 with _ | ⟨a, l1t⟩
          · -- the kept best is still the head: split with an empty strict part
            rw [List.nil_append] at hsplit
            have hb : best = selectMove ta tb p rest best (trialDiff ta tb p best.1) :=
              (List.cons.injEq _ _ _ _ ▸ hsplit).1
            refine ⟨[], o :: rest, ?_, by simp⟩
            rw [List.nil_append, ← hb]
          · -- the old best heads the strict part
            rw [List.cons_append] at hsplit
            have hb : best = a := (List.cons.injEq _ _ _ _ ▸ hsplit).1
            have hrest : rest = l1t ++
                selectMove ta tb p rest best (trialDiff ta tb p best.1) :: l2 :=
              (List.cons.injEq _ _ _ _ ▸ hsplit).2
            have hstrictbest := hstrict a (List.mem_cons_self a l1t)
            rw [← hb] at hstrictbest
            refine ⟨best :: o :: l1t, l2, ?_, ?_⟩
            · rw [List.cons_append, List.cons_append, ← hrest]
            · intro o2 ho2
              rcases List.mem_cons.mp ho2 with hc | hc
              · rw [hc]
                exact hstrictbest
              · rcases List.mem_cons.mp hc with hd | hd
                · rw [hd]
                  exact lt_of_lt_of_le hstrictbest hob
                · exact hstrict o2 (List.mem_cons_of_mem a hd)

/-- C2: the committed option is among the candidate options (constrained or
fallback), it minimizes the projected absolute skill-total gap in which only
the evaluated team's total is incremented by the player's rank, and ties are
resolved to the first-encountered option of the enumeration: every option
enumerated before the committed one has a strictly larger projected gap. -/
theorem greedy_commits_first_min_option (ta tb : TeamState) (p : Player) :
    (∀ o ∈ optionsFor ta tb p,
      specTrialDiff ta tb p (best_move ta tb p).1 ≤ specTrialDiff ta tb p o.1) ∧
    ∃ l1 l2, optionsFor ta tb p = l1 ++ best_move ta tb p :: l2 ∧
      ∀ o ∈ l1,
        specTrialDiff ta tb p (best_move ta tb p).1 < specTrialDiff ta tb p o.1 := by
  rcases hopts : optionsFor ta tb p with _ | ⟨o, rest⟩
  · exact absurd hopts (optionsFor_ne_nil ta tb p)
  · have hbm : best_move ta tb p =
        selectMove ta tb p rest o (trialDiff ta tb p o.1) := by
      unfold best_move
      rw [hopts]
    obtain ⟨hmin, l1, l2, hsplit, hstrict⟩ := selectMove_first_min ta tb p rest o
    simp only [trialDiff_eq_specTrialDiff] at hmin hstrict hsplit hbm
    constructor
    · intro o2 ho2
      rw [hbm]
      exact hmin o2 ho2
    · refine ⟨l1, l2, ?_, ?_⟩
      · rw [hbm]
        exact hsplit
      · rw [hbm]
        exact hstrict

theorem greedy_commits_first_min_option_witness :
    specTrialDiff empty_team empty_team { name := "w", rank := 4, position := "F" }
        (best_move empty_team empty_team
          { name := "w", rank := 4, position := "F" }).1 ≤
      specTrialDiff empty_team empty_team { name := "w", rank := 4, position := "F" }
        (TeamId.B, Pos.F).1 :=
  (greedy_commits_first_min_option empty_team empty_team
      { name := "w", rank := 4, position := "F" }).1 (TeamId.B, Pos.F) (by decide)

/-- A concrete input of ten eligible rows (various truthy spellings). -/
def wRows : List Row :=
  [{ selected := some "TRUE", name := "p1", rank := 1, position := "F" },
   { selected := some "yes", name := "p2", rank := 2, position := "F" },
   { selected := some "1", name := "p3", rank := 3, position := "F" },
   { selected := some "Y", name := "p4", rank := 4, position := "F" },
   { selected := some "true", name := "p5", rank := 5, position := "F" },
   { selected := some "TRUE", name := "p6", rank := 6, position := "F" },
   { selected := some "TRUE", name := "p7", rank := 7, position := "D" },
   { selected := some "TRUE", name := "p8", rank := 8, position := "D" },
   { selected := some "TRUE", name := "p9", rank := 9, position := "D" },
   { selected := some "TRUE", name := "p10", rank := 10, position := "D" }]

theorem search_places_every_player_witness :
    10 ≤ (eligiblePlayers wRows).length ∧
      ∃ a b d, build_teams wRows [eligiblePlayers wRows] = Except.ok (a, b, d) ∧
        (teamPlayers a ++ teamPlayers b).Perm (eligiblePlayers wRows) :=
  ⟨by decide,
    search_places_every_player wRows [eligiblePlayers wRows] (by decide) (by decide)
      (by
        intro ord h
        rw [List.mem_singleton] at h
        rw [h])⟩

/-! ### C3: capacity targets hold while the fallback never fires -/

/-- Both role collections are within their capacity targets. -/
def withinCaps (t : TeamState) : Prop :=
  t.F.length ≤ FORWARDS_TARGET ∧ t.D.length ≤ DEFENCE_TARGET

/-- The fallback never fires while placing this order from these states:
before every placement the constrained enumeration is non-empty. -/
def fallback_free (ta tb : TeamState) : List Player → Bool
  | [] => true
  | p :: rest =>
      !(constrainedOptions ta tb p).isEmpty &&
        fallback_free (placePlayer ta tb p).1 (placePlayer ta tb p).2 rest

theorem selectMove_mem (ta tb : TeamState) (p : Player) :
    ∀ (l : List (TeamId × Pos)) (best : TeamId × Pos) (bd : Int),
      selectMove ta tb p l best bd ∈ best :: l
  | [], best, _ => List.mem_cons_self best []
  | o :: rest, best, bd => by
      by_cases h : trialDiff ta tb p o.1 < bd
      · have hsel : selectMove ta tb p (o :: rest) best bd =
            selectMove ta tb p rest o (trialDiff ta tb p o.1) := by
          simp only [selectMove, if_pos h]
        rw [hsel]
        exact List.mem_cons_of_mem best
          (selectMove_mem ta tb p rest o (trialDiff ta tb p o.1))
      · have hsel : selectMove ta tb p (o :: rest) best bd =
            selectMove ta tb p rest best bd := by
          simp only [selectMove, if_neg h]
        rw [hsel]
        rcases List.mem_cons.mp (selectMove_mem ta tb p rest best bd) with h1 | h1
        · rw [h1]
          exact List.mem_cons_self _ _
        · exact List.mem_cons_of_mem _ (List.mem_cons_of_mem _ h1)

theorem best_move_mem (ta tb : TeamState) (p : Player) :
    best_move ta tb p ∈ optionsFor ta tb p := by
  rcases h : optionsFor ta tb p with _ | ⟨o, rest⟩
  · exact absurd h (optionsFor_ne_nil ta tb p)
  · have hbm : best_move ta tb p =
        selectMove ta tb p rest o (trialDiff ta tb p o.1) := by
      unfold best_move
      rw [h]
    rw [hbm]
    exact selectMove_mem ta tb p rest o (trialDiff ta tb p o.1)

theorem mem_teamOptions (t : TeamState) (tid : TeamId) (s : String)
    (o : TeamId × Pos) (h : o ∈ teamOptions t tid s) :
    o.1 = tid ∧ can_add t o.2 = true := by
  unfold teamOptions at h
  split at h
  · split at h
    next hc =>
      rw [List.mem_singleton] at h
      rw [h]
      exact ⟨rfl, hc⟩
    next hc => simp at h
  · split at h
    · split at h
      next hc =>
        rw [List.mem_singleton] at h
        rw [h]
        exact ⟨rfl, hc⟩
      next hc => simp at h
    · rcases List.mem_append.mp h with h2 | h2
      · split at h2
        next hc =>
          rw [List.mem_singleton] at h2
          rw [h2]
          exact ⟨rfl, hc⟩
        next hc => simp at h2
      · split at h2
        next hc =>
          rw [List.mem_singleton] at h2
          rw [h2]
          exact ⟨rfl, hc⟩
        next hc => simp at h2

theorem constrained_mem_can_add (ta tb : TeamState) (p : Player) (tid : TeamId)
    (pos : Pos) (h : (tid, pos) ∈ constrainedOptions ta tb p) :
    can_add (teamOf ta tb tid) pos = true := by
  unfold constrainedOptions at h
  rcases List.mem_append.mp h with h | h
  · obtain ⟨h1, h2⟩ := mem_teamOptions ta TeamId.A p.position (tid, pos) h
    subst h1
    exact h2
  · obtain ⟨h1, h2⟩ := mem_teamOptions tb TeamId.B p.position (tid, pos) h
    subst h1
    exact h2

theorem withinCaps_assign (t : TeamState) (p : Player) (pos : Pos)
    (hc : withinCaps t) (h : can_add t pos = true) :
    withinCaps (assign_player t p pos) := by
  obtain ⟨hF, hD⟩ := hc
  cases pos <;>
    simp only [can_add, decide_eq_true_eq] at h <;>
    simp only [withinCaps, assign_player, List.length_append,
      List.length_singleton] <;>
    constructor <;> omega

theorem placePlayer_withinCaps (ta tb : TeamState) (p : Player)
    (hne : constrainedOptions ta tb p ≠ [])
    (ha : withinCaps ta) (hb : withinCaps tb) :
    withinCaps (placePlayer ta tb p).1 ∧ withinCaps (placePlayer ta tb p).2 := by
  have hopts : optionsFor ta tb p = constrainedOptions ta tb p := by
    unfold optionsFor
    rw [if_neg hne]
  have hmem : best_move ta tb p ∈ constrainedOptions ta tb p := by
    rw [← hopts]
    exact best_move_mem ta tb p
  rcases hbm : best_move ta tb p with ⟨tid, pos⟩
  rw [hbm] at hmem
  have hca := constrained_mem_can_add ta tb p tid pos hmem
  cases tid
  · have hp : placePlayer ta tb p = (assign_player ta p pos, tb) := by
      unfold placePlayer
      rw [hbm]
    rw [hp]
    exact ⟨withinCaps_assign ta p pos ha hca, hb⟩
  · have hp : placePlayer ta tb p = (ta, assign_player tb p pos) := by
      unfold placePlayer
      rw [hbm]
    rw [hp]
    exact ⟨ha, withinCaps_assign tb p pos hb hca⟩

theorem fallback_free_append : ∀ (l1 l2 : List Player) (ta tb : TeamState),
    fallback_free ta tb (l1 ++ l2) = true → fallback_free ta tb l1 = true
  | [], _, _, _, _ => rfl
  | p :: rest, l2, ta, tb, h => by
      rw [List.cons_append] at h
      unfold fallback_free at h ⊢
      rw [Bool.and_eq_true] at h ⊢
      exact ⟨h.1, fallback_free_append rest l2 _ _ h.2⟩

theorem fallback_free_caps : ∀ (ps : List Player) (ta tb : TeamState),
    withinCaps ta → withinCaps tb → fallback_free ta tb ps = true →
    withinCaps (ps.foldl (fun st p => placePlayer st.1 st.2 p) (ta, tb)).1 ∧
      withinCaps (ps.foldl (fun st p => placePlayer st.1 st.2 p) (ta, tb)).2
  | [], _, _, ha, hb, _ => ⟨ha, hb⟩
  | p :: rest, ta, tb, ha, hb, hff => by
      simp only [List.foldl_cons]
      unfold fallback_free at hff
      rw [Bool.and_eq_true] at hff
      have hne : constrainedOptions ta tb p ≠ [] := by
        intro hc
        have h1 := hff.1
        rw [hc] at h1
        simp at h1
      obtain ⟨h1, h2⟩ := placePlayer_withinCaps ta tb p hne ha hb
      exact fallback_free_caps rest _ _ h1 h2 hff.2

/-- C3: in a constructor run during which the fallback never fires, both
teams are within `FORWARDS_TARGET` and `DEFENCE_TARGET` after every
assignment (every prefix of the order), and hence in the attempt's returned
partition. -/
theorem caps_hold_absent_fallback (ps pre suf : List Player)
    (hsplit : ps = pre ++ suf)
    (hff : fallback_free empty_team empty_team ps = true) :
    (withinCaps (pre.foldl (fun st p => placePlayer st.1 st.2 p)
        (empty_team, empty_team)).1 ∧
      withinCaps (pre.foldl (fun st p => placePlayer st.1 st.2 p)
        (empty_team, empty_team)).2) ∧
    (withinCaps (attempt_build ps).1 ∧ withinCaps (attempt_build ps).2) := by
  constructor
  · subst hsplit
    exact fallback_free_caps pre empty_team empty_team
      ⟨Nat.zero_le _, Nat.zero_le _⟩ ⟨Nat.zero_le _, Nat.zero_le _⟩
      (fallback_free_append pre suf empty_team empty_team hff)
  · exact fallback_free_caps ps empty_team empty_team
      ⟨Nat.zero_le _, Nat.zero_le _⟩ ⟨Nat.zero_le _, Nat.zero_le _⟩ hff

theorem caps_hold_absent_fallback_witness :
    fallback_free empty_team empty_team
        [{ name := "f1", rank := 2, position := "F" },
         { name := "d1", rank := 1, position := "D" }] = true ∧
      ((withinCaps (([{ name := "f1", rank := 2, position := "F" }] :
            List Player).foldl (fun st p => placePlayer st.1 st.2 p)
            (empty_team, empty_team)).1 ∧
        withinCaps (([{ name := "f1", rank := 2, position := "F" }] :
            List Player).foldl (fun st p => placePlayer st.1 st.2 p)
            (empty_team, empty_team)).2) ∧
       (withinCaps (attempt_build
            [{ name := "f1", rank := 2, position := "F" },
             { name := "d1", rank := 1, position := "D" }]).1 ∧
        withinCaps (attempt_build
            [{ name := "f1", rank := 2, position := "F" },
             { name := "d1", rank := 1, position := "D" }]).2)) :=
  ⟨by decide,
    caps_hold_absent_fallback
      [{ name := "f1", rank := 2, position := "F" },
       { name := "d1", rank := 1, position := "D" }]
      [{ name := "f1", rank := 2, position := "F" }]
      [{ name := "d1", rank := 1, position := "D" }] (by decide) (by decide)⟩

/-! ### C5: players with an unexpected position string -/

/-- C5 counterexample: a player whose position is the unexpected literal
"GOALIE" is *not* routed through the fallback policy — on two empty teams
the constrained enumeration is non-empty (the source's `else` branch treats
any unknown position as Flex), and the option list used is exactly that
constrained enumeration, not the fallback list. -/
theorem unknown_position_not_fallback_only :
    constrainedOptions empty_team empty_team
        { name := "g", rank := 5, position := "GOALIE" } ≠ [] ∧
      optionsFor empty_team empty_team
          { name := "g", rank := 5, position := "GOALIE" } =
        constrainedOptions empty_team empty_team
          { name := "g", rank := 5, position := "GOALIE" } := by
  decide

theorem selectMove_rank_only (ta tb : TeamState) (p q : Player)
    (hr : p.rank = q.rank) :
    ∀ (l : List (TeamId × Pos)) (best : TeamId × Pos) (bd : Int),
      selectMove ta tb p l best bd = selectMove ta tb q l best bd
  | [], _, _ => rfl
  | o :: rest, best, bd => by
      have ht : trialDiff ta tb p o.1 = trialDiff ta tb q o.1 := by
        unfold trialDiff
        rw [hr]
      simp only [selectMove]
      rw [ht]
      by_cases h : trialDiff ta tb q o.1 < bd
      · rw [if_pos h, if_pos h]
        exact selectMove_rank_only ta tb p q hr rest o (trialDiff ta tb q o.1)
      · rw [if_neg h, if_neg h]
        exact selectMove_rank_only ta tb p q hr rest best bd

/-- C5 (amended): a player whose position string is neither `"F"` nor `"D"`
is not unplaceable — the constructor treats it exactly as a Flex player:
its candidate enumeration and its committed move coincide with those of the
same player carrying position "FLEX", and the fallback is reached only when
all four slots are capped, as for any Flex player. -/
theorem unknown_position_treated_as_flex (ta tb : TeamState) (p : Player)
    (h1 : p.position ≠ "F") (h2 : p.position ≠ "D") :
    optionsFor ta tb p =
      optionsFor ta tb { name := p.name, rank := p.rank, position := "FLEX" } ∧
    best_move ta tb p =
      best_move ta tb { name := p.name, rank := p.rank, position := "FLEX" } := by
  have hF : ("FLEX" : String) ≠ "F" := by decide
  have hD : ("FLEX" : String) ≠ "D" := by decide
  have hopt : optionsFor ta tb p =
      optionsFor ta tb { name := p.name, rank := p.rank, position := "FLEX" } := by
    unfold optionsFor constrainedOptions teamOptions
    simp only [if_neg h1, if_neg h2, if_neg hF, if_neg hD]
  refine ⟨hopt, ?_⟩
  unfold best_move
  rw [hopt]
  rcases hx : optionsFor ta tb
      { name := p.name, rank := p.rank, position := "FLEX" } with _ | ⟨o, rest⟩
  · rfl
  · exact selectMove_rank_only ta tb p
      { name := p.name, rank := p.rank, position := "FLEX" } rfl rest o
      (trialDiff ta tb p o.1)

theorem unknown_position_treated_as_flex_witness :
    (({ name := "g", rank := 5, position := "GOALIE" } : Player).position ≠ "F") ∧
    (({ name := "g", rank := 5, position := "GOALIE" } : Player).position ≠ "D") ∧
    (optionsFor empty_team empty_team
        { name := "g", rank := 5, position := "GOALIE" } =
      optionsFor empty_team empty_team
        { name := "g", rank := 5, position := "FLEX" } ∧
     best_move empty_team empty_team
        { name := "g", rank := 5, position := "GOALIE" } =
      best_move empty_team empty_team
        { name := "g", rank := 5, position := "FLEX" }) :=
  ⟨by decide, by decide,
    unknown_position_treated_as_flex empty_team empty_team
      { name := "g", rank := 5, position := "GOALIE" } (by decide) (by decide)⟩

/-! ### C10: Flex players take a Defence slot only when Forwards are full -/

/-- Position of each (team, slot) pair in the source's flex enumeration
order: team A's Forward slot, team A's Defence slot, then team B's. -/
def optRank : TeamId × Pos → Nat
  | (TeamId.A, Pos.F) => 0
  | (TeamId.A, Pos.D) => 1
  | (TeamId.B, Pos.F) => 2
  | (TeamId.B, Pos.D) => 3

theorem constrainedOptions_pairwise (ta tb : TeamState) (p : Player)
    (h1 : p.position ≠ "F") (h2 : p.position ≠ "D") :
    (constrainedOptions ta tb p).Pairwise
      (fun x y => optRank x < optRank y) := by
  unfold constrainedOptions teamOptions
  simp only [if_neg h1, if_neg h2]
  by_cases caF : can_add ta Pos.F = true <;>
    by_cases caD : can_add ta Pos.D = true <;>
    by_cases cbF : can_add tb Pos.F = true <;>
    by_cases cbD : can_add tb Pos.D = true <;>
    simp [caF, caD, cbF, cbD, optRank]

/-- C10: because the trial gap depends only on the chosen team and the
Forward slot of a team is enumerated before its Defence slot, a player taken
through the Flex branch (position neither `"F"` nor `"D"`) is committed to a
team's Defence collection under the constrained (non-fallback) options only
when that team's Forward collection has already reached its target size. -/
theorem flex_defence_only_when_forwards_full (ta tb : TeamState) (p : Player)
    (h1 : p.position ≠ "F") (h2 : p.position ≠ "D")
    (hne : constrainedOptions ta tb p ≠ []) (tid : TeamId)
    (hbm : best_move ta tb p = (tid, Pos.D)) :
    FORWARDS_TARGET ≤ (teamOf ta tb tid).F.length := by
  by_contra hlt
  rw [not_le] at hlt
  have hcan : can_add (teamOf ta tb tid) Pos.F = true := by
    simp only [can_add, decide_eq_true_eq]
    exact hlt
  have hopts : optionsFor ta tb p = constrainedOptions ta tb p := by
    unfold optionsFor
    rw [if_neg hne]
  have hmemF : (tid, Pos.F) ∈ constrainedOptions ta tb p := by
    unfold constrainedOptions teamOptions
    simp only [if_neg h1, if_neg h2]
    cases tid
    · have hc2 : can_add ta Pos.F = true := hcan
      apply List.mem_append_left
      apply List.mem_append_left
      rw [if_pos hc2]
      exact List.mem_singleton.mpr rfl
    · have hc2 : can_add tb Pos.F = true := hcan
      apply List.mem_append_right
      apply List.mem_append_left
      rw [if_pos hc2]
      exact List.mem_singleton.mpr rfl
  rcases hc : constrainedOptions ta tb p with _ | ⟨o, rest⟩
  · exact hne hc
  have hbm2 : best_move ta tb p =
      selectMove ta tb p rest o (trialDiff ta tb p o.1) := by
    unfold best_move
    rw [hopts, hc]
  obtain ⟨hmin, l1, l2, hsplit, hstrict⟩ := selectMove_first_min ta tb p rest o
  rw [← hbm2, hbm] at hsplit hstrict
  rw [hc, hsplit] at hmemF
  rcases List.mem_append.mp hmemF with hF1 | hF2
  · have hlt2 := hstrict _ hF1
    exact absurd hlt2 (lt_irrefl _)
  · rcases List.mem_cons.mp hF2 with hEq | hF3
    · exact absurd hEq (by simp)
    · have hpair := constrainedOptions_pairwise ta tb p h1 h2
      rw [hc, hsplit] at hpair
      have h5 := (List.pairwise_append.mp hpair).2.1
      have h6 := (List.pairwise_cons.mp h5).1 _ hF3
      cases tid <;> simp [optRank] at h6

/-- A team whose Forward collection is exactly at target. -/
def fullFTeam : TeamState :=
  { F := List.replicate 6 { name := "a", rank := 1, position := "F" },
    D := [], total := 6 }

theorem flex_defence_only_when_forwards_full_witness :
    (({ name := "x", rank := 0, position := "FLEX" } : Player).position ≠ "F") ∧
    (({ name := "x", rank := 0, position := "FLEX" } : Player).position ≠ "D") ∧
    constrainedOptions fullFTeam empty_team
        { name := "x", rank := 0, position := "FLEX" } ≠ [] ∧
    best_move fullFTeam empty_team
        { name := "x", rank := 0, position := "FLEX" } = (TeamId.A, Pos.D) ∧
    FORWARDS_TARGET ≤ (teamOf fullFTeam empty_team TeamId.A).F.length :=
  ⟨by decide, by decide, by decide, by decide,
    flex_defence_only_when_forwards_full fullFTeam empty_team
      { name := "x", rank := 0, position := "FLEX" } (by decide) (by decide)
      (by decide) TeamId.A (by decide)⟩
